import Mathlib

/-!
Verification of the Solidity-compatible storage subsystem documented in
`docs/fluentbase-sdk/storage.md`.  The repository is a documentation site:
it describes the design (key derivation, direct/indirect accessors, slot
assignment, host storage interface) but ships no implementation, so every
definition below is modelled from the specification text and the storage
documentation, faithful to their words.
-/

/-- Modelled from the spec: a byte is an unsigned 8-bit quantity; we carry
bytes as `Nat` and reduce modulo 256 where the value is consumed. -/
def byteStep (acc b : Nat) : Nat := acc * 256 + b % 256

/-- Modelled from the spec: big-endian interpretation of a byte sequence as
an unsigned integer (the canonical big-endian, type-directed layout of §6). -/
def natOfBeBytes (bs : List Nat) : Nat := bs.foldl byteStep 0

/-- Modelled from the spec: the `w`-byte big-endian encoding of `n`
(most-significant byte first), truncating above `2 ^ (8 * w)`. -/
def beBytes (w n : Nat) : List Nat :=
  match w with
  | 0 => []
  | w + 1 => (n >>> (8 * w)) % 256 :: beBytes w n

/-- Modelled from the spec: `pad32` left-pads (right-aligns) a byte string
with zero bytes to 32 bytes, the reference VM's padding convention (§4.2). -/
def pad32 (bs : List Nat) : List Nat := List.replicate (32 - bs.length) 0 ++ bs

/-- Modelled from the spec: little-endian interpretation of a byte sequence,
used for keccak lane loading. -/
def natOfLeBytes (bs : List Nat) : Nat := bs.foldr (fun b acc => acc * 256 + b % 256) 0

/-- Modelled from the spec: 64-bit left rotation, a keccak-f[1600] primitive. -/
def rotl64 (x n : Nat) : Nat := ((x <<< (n % 64)) ||| (x >>> (64 - n % 64))) % 2 ^ 64

/-- Modelled from the spec: one step of the degree-8 LFSR that generates the
keccak round-constant bits. -/
def keccakLfsrStep (r : Nat) : Nat := ((r <<< 1) ^^^ ((r >>> 7) * 0x71)) % 256

/-- Modelled from the spec: the round-constant bit `rc(t)`, the low bit of
the LFSR state after `t` steps from 1. -/
def keccakRcBit (t : Nat) : Nat := (keccakLfsrStep^[t] 1) % 2

/-- Modelled from the spec: the 24 keccak-f[1600] round constants, bit
`2 ^ j - 1` of round `i` being `rc(7 i + j)`. -/
def keccakRC : List Nat :=
  (List.range 24).map fun i =>
    (List.range 7).foldl (fun acc j => acc + keccakRcBit (7 * i + j) * 2 ^ (2 ^ j - 1)) 0

/-- Modelled from the spec: the lane visited at step `t` of the pi orbit of
lane `(1, 0)`, which enumerates every lane but `(0, 0)` once. -/
def keccakRhoOrbit : Nat → Nat × Nat
  | 0 => (1, 0)
  | t + 1 =>
    let p := keccakRhoOrbit t
    (p.2, (2 * p.1 + 3 * p.2) % 5)

/-- Modelled from the spec: keccak rotation offsets, indexed by `x + 5 * y`:
lane `(0, 0)` rotates by 0 and the orbit's step-`t` lane by the triangular
number `(t+1)(t+2)/2 mod 64`. -/
def keccakRho : List Nat :=
  (List.range 25).map fun i =>
    (List.range 24).foldl
      (fun acc t =>
        let p := keccakRhoOrbit t
        if p.1 + 5 * p.2 = i then acc + (t + 1) * (t + 2) / 2 % 64 else acc) 0

/-- Modelled from the spec: lane accessor for the 5x5 keccak state
(index `x + 5 * y`, coordinates taken modulo 5). -/
def lget (A : List Nat) (x y : Nat) : Nat := A.getD (x % 5 + 5 * (y % 5)) 0

/-- Modelled from the spec: the keccak theta step. -/
def keccakTheta (A : List Nat) : List Nat :=
  let C := (List.range 5).map fun x =>
    lget A x 0 ^^^ lget A x 1 ^^^ lget A x 2 ^^^ lget A x 3 ^^^ lget A x 4
  let D := (List.range 5).map fun x =>
    C.getD ((x + 4) % 5) 0 ^^^ rotl64 (C.getD ((x + 1) % 5) 0) 1
  (List.range 25).map fun i => A.getD i 0 ^^^ D.getD (i % 5) 0

/-- Modelled from the spec: the combined keccak rho and pi steps,
`B[x, y] = rotl(A[(x + 3y) % 5, x], rho[(x + 3y) % 5, x])`. -/
def keccakRhoPi (A : List Nat) : List Nat :=
  (List.range 25).map fun i =>
    let x := i % 5
    let y := i / 5
    let sx := (x + 3 * y) % 5
    rotl64 (lget A sx x) (keccakRho.getD (sx + 5 * x) 0)

/-- Modelled from the spec: the keccak chi step. -/
def keccakChi (B : List Nat) : List Nat :=
  (List.range 25).map fun i =>
    let x := i % 5
    let y := i / 5
    lget B x y ^^^ ((lget B (x + 1) y ^^^ (2 ^ 64 - 1)) &&& lget B (x + 2) y)

/-- Modelled from the spec: the keccak iota step xors the round constant
into lane (0, 0). -/
def keccakIota (rc : Nat) (A : List Nat) : List Nat :=
  match A with
  | [] => []
  | a :: rest => (a ^^^ rc) :: rest

/-- Modelled from the spec: one keccak-f[1600] round. -/
def keccakRound (A : List Nat) (rc : Nat) : List Nat :=
  keccakIota rc (keccakChi (keccakRhoPi (keccakTheta A)))

/-- Modelled from the spec: the full keccak-f[1600] permutation (24 rounds). -/
def keccakF (A : List Nat) : List Nat := keccakRC.foldl keccakRound A

/-- Modelled from the spec: load the 17 rate lanes of a 136-byte block,
little-endian per 8-byte lane. -/
def blockLanes (block : List Nat) : List Nat :=
  (List.range 17).map fun i => natOfLeBytes ((block.drop (8 * i)).take 8)

/-- Modelled from the spec: absorb one 136-byte block into the state. -/
def absorbBlock (A block : List Nat) : List Nat :=
  keccakF ((List.range 25).map fun i => A.getD i 0 ^^^ (blockLanes block).getD i 0)

/-- Modelled from the spec: legacy keccak multi-rate padding (domain byte
0x01, final bit 0x80), as used by the reference VM's keccak256. -/
def keccakPadMsg (msg : List Nat) : List Nat :=
  let p := 136 - msg.length % 136
  msg ++ (if p = 1 then [0x81] else 0x01 :: (List.replicate (p - 2) 0 ++ [0x80]))

/-- Modelled from the spec: the external keccak256 hash referenced by the
storage key-derivation rules of §4.2; the repository documents the hash as a
fixed external algorithm, reproduced here in full (returns the digest read
as a 256-bit big-endian unsigned integer, the `StorageKey` representation). -/
def keccak256 (msg : List Nat) : Nat :=
  let padded := keccakPadMsg msg
  let blocks := (List.range (padded.length / 136)).map fun i =>
    (padded.drop (136 * i)).take 136
  let A := blocks.foldl absorbBlock (List.replicate 25 0)
  natOfBeBytes ((List.range 32).map fun i => (A.getD (i / 8) 0 >>> (8 * (i % 8))) % 256)

/-- Modelled from the spec: a `KeyPathComponent` (§3) — either the padded
encoding of a mapping key or a 256-bit array index. -/
inductive PathComp
  | mapKey (kb : List Nat)
  | arrIdx (i : Nat)
deriving DecidableEq, Repr

/-- Modelled from the spec: one simple-mapping derivation step (§4.2 rule 2):
`key = keccak256(pad32(encode(k)) || pad32(slot))`. -/
def mappingKeyStep (slot : Nat) (kb : List Nat) : Nat :=
  keccak256 (pad32 kb ++ beBytes 32 slot)

/-- Modelled from the spec: one dynamic-array derivation step (§4.2 rule 4):
element `i` lives at `keccak256(pad32(slot)) + i` with 256-bit wrapping
addition. -/
def arrayStep (slot : Nat) (i : Nat) : Nat :=
  (keccak256 (beBytes 32 slot) + i) % 2 ^ 256

/-- Modelled from the spec: the Key Derivation Engine (§4.2) — left fold of
the per-shape rules over the key path, innermost hash first; an empty path is
rule 1, `key = slot`. -/
def deriveKey (slot : Nat) : List PathComp → Nat
  | [] => slot
  | .mapKey kb :: rest => deriveKey (mappingKeyStep slot kb) rest
  | .arrIdx i :: rest => deriveKey (arrayStep slot i) rest

/-- Modelled from the spec: the Host Storage Interface state (§6), a
key-value store of 256-bit words; represented as the journal of writes,
most recent first, with never-written keys reading as zero. -/
abbrev HostState : Type := List (Nat × Nat)

/-- Modelled from the spec: `read(key) -> 256-bit word`, returning the
zero-filled word for never-written keys. -/
def hostRead (st : HostState) (k : Nat) : Nat :=
  match st with
  | [] => 0
  | (k2, v) :: rest => if k2 = k then v else hostRead rest k

/-- Modelled from the spec: `write(key, value)`; last write for a given key
wins. -/
def hostWrite (st : HostState) (k v : Nat) : HostState :=
  (k, v % 2 ^ 256) :: st

/-- Modelled from the spec: the static type classification of a storage
entry's value type (§4.3/§4.4): fixed-width word-like types versus
codec-encoded dynamic byte content. -/
inductive Ty
  | word
  | boolean
  | addr
  | bytes
deriving DecidableEq, Repr

/-- Modelled from the spec: a typed storage value. -/
inductive Val
  | word (n : Nat)
  | boolean (b : Bool)
  | addr (a : Nat)
  | bytes (bs : List Nat)
deriving DecidableEq, Repr

/-- Modelled from the spec: the static type of a value. -/
def Val.ty : Val → Ty
  | .word _ => .word
  | .boolean _ => .boolean
  | .addr _ => .addr
  | .bytes _ => .bytes

/-- Modelled from the spec: well-formedness of a value — a 256-bit word, a
160-bit address, byte content with genuine bytes and a length below the
256-bit bound. -/
def wfVal : Val → Bool
  | .word n => n < 2 ^ 256
  | .boolean _ => true
  | .addr a => a < 2 ^ 160
  | .bytes bs => decide (bs.length < 2 ^ 256) && bs.all (· < 256)

/-- Modelled from the spec: the type's zero value (§4.3, §7): 0, false, zero
address, empty bytes. -/
def zeroVal : Ty → Val
  | .word => .word 0
  | .boolean => .boolean false
  | .addr => .addr 0
  | .bytes => .bytes []

/-- Modelled from the spec: the canonical encoder (§6): fixed big-endian
layout for word-like types, and a 32-byte big-endian length prefix followed
by the content for dynamically sized byte content. -/
def encodeVal : Val → List Nat
  | .word n => beBytes 32 n
  | .boolean b => [if b then 1 else 0]
  | .addr a => beBytes 20 a
  | .bytes bs => beBytes 32 bs.length ++ bs

/-- Modelled from the spec: the single error class of §7 relevant to decode,
`ShapeMismatchError` (stored bytes cannot be decoded into the statically
expected type). -/
inductive DecodeError
  | shapeMismatch
deriving DecidableEq, Repr

/-- Modelled from the spec: the shape validity of stored dynamic-byte
content (§7, "length metadata inconsistent"): a 32-byte length word, enough
data bytes for the announced length, and only zero padding after them — the
layout the Indirect Accessor's writer produces.  Any other stored bytes do
not match the dynamic type's shape. -/
def bytesShapeOk (e : List Nat) : Bool :=
  decide (32 ≤ e.length) &&
  decide (natOfBeBytes (e.take 32) ≤ (e.drop 32).length) &&
  decide ((e.drop 32).drop (natOfBeBytes (e.take 32))
    = List.replicate ((e.drop 32).length - natOfBeBytes (e.take 32)) 0)

/-- Modelled from the spec: the canonical decoder (§6, §4.4): validates the
shape of the bytes against the statically expected type and fails with a
`DecodeError` on mismatch, never silently producing a wrong value. -/
def decodeValEnc (ty : Ty) (e : List Nat) : Except DecodeError Val :=
  match ty with
  | .word => if e.length = 32 then .ok (.word (natOfBeBytes e)) else .error .shapeMismatch
  | .boolean =>
    if e = [0] then .ok (.boolean false)
    else if e = [1] then .ok (.boolean true)
    else .error .shapeMismatch
  | .addr => if e.length = 20 then .ok (.addr (natOfBeBytes e)) else .error .shapeMismatch
  | .bytes =>
    if bytesShapeOk e then .ok (.bytes ((e.drop 32).take (natOfBeBytes (e.take 32))))
    else .error .shapeMismatch

/-- Modelled from the spec: the Direct Accessor's write path (§4.3): encode
to the fixed-width representation, right-align per the key padding
convention, and write the single 32-byte slot at the derived key. -/
def directSetBytes (st : HostState) (k : Nat) (e : List Nat) : HostState :=
  hostWrite st k (natOfBeBytes (pad32 e))

/-- Modelled from the spec: split a byte sequence into 32-byte slot chunks,
the last chunk zero-padded on the right. -/
def chunksPad (l : List Nat) : List (List Nat) :=
  if h : l = [] then []
  else (l.take 32 ++ List.replicate (32 - l.length) 0) :: chunksPad (l.drop 32)
termination_by l.length
decreasing_by
  simp only [List.length_drop]
  have : l.length ≠ 0 := fun hl => h (List.length_eq_zero.mp hl)
  omega

/-- Modelled from the spec: write a list of 32-byte chunks to consecutively
addressed slots starting at `k`, each written individually (§4.4). -/
def writeChunks (st : HostState) (k : Nat) : List (List Nat) → HostState
  | [] => st
  | c :: cs => writeChunks (hostWrite st k (natOfBeBytes c)) (k + 1) cs

/-- Modelled from the spec: the Indirect Accessor's write path (§4.4): if the
encoding fits a single slot, behave like the Direct Accessor; otherwise split
it across consecutively addressed slots — the canonical encoding of
dynamically sized content starts with its length word, so the head slot
records the encoded length. -/
def indirectSetBytes (st : HostState) (k : Nat) (e : List Nat) : HostState :=
  if e.length ≤ 32 then directSetBytes st k e else writeChunks st k (chunksPad e)

/-- Modelled from the spec: the Direct Accessor's read path (§4.3, §7):
decode the single stored word according to the static type, validating its
shape and failing with `ShapeMismatchError` on mismatch. -/
def decodeWordAs (ty : Ty) (w : Nat) : Except DecodeError Val :=
  match ty with
  | .word => .ok (.word w)
  | .boolean =>
    if w = 0 then .ok (.boolean false)
    else if w = 1 then .ok (.boolean true)
    else .error .shapeMismatch
  | .addr => if w < 2 ^ 160 then .ok (.addr w) else .error .shapeMismatch
  | .bytes => .error .shapeMismatch

/-- Modelled from the spec: the raw bytes the Indirect Accessor's read path
reconstructs (§4.4): the head slot's length word followed by the required
number of continuation slots, concatenated. -/
def indirectReadEnc (st : HostState) (k : Nat) : List Nat :=
  beBytes 32 (hostRead st k) ++
    ((List.range ((hostRead st k + 31) / 32)).map
      fun j => beBytes 32 (hostRead st (k + 1 + j))).flatten

/-- Modelled from the spec: the Indirect Accessor's read path (§4.4): read
the head slot to recover the length metadata, read the required number of
continuation slots, concatenate, and decode — the decoder validating the
reconstructed bytes against the dynamic type's shape. -/
def indirectGetBytes (st : HostState) (k : Nat) : Except DecodeError Val :=
  decodeValEnc .bytes (indirectReadEnc st k)

/-- Modelled from the spec: shape-directed dispatch (§2, §9): fixed-width
word-like types take the Direct Accessor, codec-encoded content the Indirect
Accessor. -/
def isDirectTy : Ty → Bool
  | .bytes => false
  | _ => true

/-- Modelled from the spec: the `set` operation at an already derived key:
dispatch on the entry's static type classification. -/
def storSet (st : HostState) (k : Nat) (v : Val) : HostState :=
  if isDirectTy v.ty then directSetBytes st k (encodeVal v)
  else indirectSetBytes st k (encodeVal v)

/-- Modelled from the spec: the `get` operation at an already derived key:
dispatch on the entry's static type classification. -/
def storGet (st : HostState) (k : Nat) (ty : Ty) : Except DecodeError Val :=
  if isDirectTy ty then decodeWordAs ty (hostRead st k) else indirectGetBytes st k

/-- Modelled from the spec: a storage declaration (name and type shape);
the shape is summarised by its byte footprint, which the Slot Assigner must
ignore. -/
structure Decl where
  name : String
  sizeBytes : Nat
deriving DecidableEq, Repr

/-- Modelled from the spec: the Slot Assigner's recursion — assign slot `s`
to the first declaration, `s + 1` to the next, and so on. -/
def assignFrom (s : Nat) : List Decl → List (Nat × Decl)
  | [] => []
  | d :: rest => (s, d) :: assignFrom (s + 1) rest

/-- Modelled from the spec: the Slot Assigner (§4.1): sequential base slots
starting at 0, in declaration order, regardless of each type's footprint. -/
def assignSlots (ds : List Decl) : List (Nat × Decl) := assignFrom 0 ds

/-- Modelled from the spec: one storage operation of an invocation. -/
inductive Op
  | opSet (slot : Nat) (path : List PathComp) (v : Val)
  | opGet (slot : Nat) (path : List PathComp) (ty : Ty)

/-- Modelled from the spec: run an invocation's storage operations in order;
a decode failure is propagated and aborts the run (§7). -/
def runOps (st : HostState) : List Op → Except DecodeError HostState
  | [] => .ok st
  | .opSet s p v :: rest => runOps (storSet st (deriveKey s p) v) rest
  | .opGet s p ty :: rest =>
    match storGet st (deriveKey s p) ty with
    | .ok _ => runOps st rest
    | .error e => .error e

/-- Modelled from the spec: the committed state of an invocation (§5, §7):
on success the writes commit; on a storage error the entire invocation
aborts and all pending writes are discarded. -/
def invoke (st : HostState) (ops : List Op) : HostState :=
  match runOps st ops with
  | .ok st2 => st2
  | .error _ => st

/-- Modelled from the spec: the generated `key(sdk, args...)` operation of
§4.5 — it receives the host handle like `get`/`set` do, but the derived key
is a pure function of the base slot and key path alone. -/
def keyOp (slot : Nat) (path : List PathComp) (st : HostState) : Nat × HostState :=
  (deriveKey slot path, st)

/-- Modelled from the spec: the generated mapping `key` operation applied to
a typed key value, which is first canonically encoded. -/
def mappingKeyOf (slot : Nat) (v : Val) : Nat :=
  deriveKey slot [.mapKey (encodeVal v)]

/-- Modelled from the spec: the generated dynamic-array `set` accessor:
write the value at the derived element key. -/
def arraySet (st : HostState) (slot i : Nat) (v : Val) : HostState :=
  storSet st (deriveKey slot [.arrIdx i]) v

/-- Modelled from the spec: the generated dynamic-array `get` accessor:
read the element at the derived element key. -/
def arrayGet (st : HostState) (slot i : Nat) (ty : Ty) : Except DecodeError Val :=
  storGet st (deriveKey slot [.arrIdx i]) ty

instance {e a : Type} [DecidableEq e] [DecidableEq a] : DecidableEq (Except e a) := fun x y =>
  match x, y with
  | .ok u, .ok v =>
    if h : u = v then .isTrue (by rw [h]) else .isFalse (fun hc => h (Except.ok.inj hc))
  | .error u, .error v =>
    if h : u = v then .isTrue (by rw [h]) else .isFalse (fun hc => h (Except.error.inj hc))
  | .ok _, .error _ => .isFalse (fun hc => Except.noConfusion hc)
  | .error _, .ok _ => .isFalse (fun hc => Except.noConfusion hc)

theorem natOfBeBytes_acc (bs : List Nat) (acc : Nat) :
    bs.foldl byteStep acc = acc * 256 ^ bs.length + natOfBeBytes bs := by
  induction bs generalizing acc with
  | nil => simp [natOfBeBytes]
  | cons b bs ih =>
    show bs.foldl byteStep (byteStep acc b) = _
    have h0 : natOfBeBytes (b :: bs) = bs.foldl byteStep (byteStep 0 b) := rfl
    rw [ih (byteStep acc b), h0, ih (byteStep 0 b)]
    simp only [byteStep, List.length_cons, pow_succ]
    ring

theorem natOfBeBytes_cons (b : Nat) (bs : List Nat) :
    natOfBeBytes (b :: bs) = b % 256 * 256 ^ bs.length + natOfBeBytes bs := by
  have h0 : natOfBeBytes (b :: bs) = bs.foldl byteStep (byteStep 0 b) := rfl
  rw [h0, natOfBeBytes_acc]
  simp [byteStep]

theorem natOfBeBytes_lt (bs : List Nat) : natOfBeBytes bs < 256 ^ bs.length := by
  induction bs with
  | nil => simp [natOfBeBytes]
  | cons b bs ih =>
    rw [natOfBeBytes_cons, List.length_cons, pow_succ]
    have hb : b % 256 < 256 := Nat.mod_lt _ (by norm_num)
    have hp : 0 < (256 : Nat) ^ bs.length := Nat.pos_pow_of_pos _ (by norm_num)
    nlinarith

theorem beBytes_length (w n : Nat) : (beBytes w n).length = w := by
  induction w generalizing n with
  | zero => rfl
  | succ w ih => simp [beBytes, ih]

theorem pow256_eq (w : Nat) : (256 : Nat) ^ w = 2 ^ (8 * w) := by
  rw [show (256 : Nat) = 2 ^ 8 by norm_num, ← pow_mul]

theorem pow2_mul256 (w : Nat) : (2 : Nat) ^ (8 * (w + 1)) = 2 ^ (8 * w) * 256 := by
  rw [Nat.mul_succ, pow_add]
  norm_num

theorem natOfBeBytes_beBytes (w n : Nat) :
    natOfBeBytes (beBytes w n) = n % 2 ^ (8 * w) := by
  induction w with
  | zero => simp [beBytes, natOfBeBytes, Nat.mod_one]
  | succ w ih =>
    rw [beBytes, natOfBeBytes_cons, beBytes_length, ih,
      Nat.shiftRight_eq_div_pow, pow256_eq, pow2_mul256, Nat.mod_mul,
      Nat.mod_mod_of_dvd _ dvd_rfl]
    ring

theorem beBytes_mod (w n : Nat) : beBytes w (n % 2 ^ (8 * w)) = beBytes w n := by
  induction w generalizing n with
  | zero => rfl
  | succ w ih =>
    rw [beBytes, beBytes]
    congr 1
    · rw [Nat.shiftRight_eq_div_pow, Nat.shiftRight_eq_div_pow, pow2_mul256,
        Nat.mod_mul_right_div_self, Nat.mod_mod_of_dvd _ dvd_rfl]
    · calc beBytes w (n % 2 ^ (8 * (w + 1)))
          = beBytes w (n % 2 ^ (8 * (w + 1)) % 2 ^ (8 * w)) := (ih _).symm
        _ = beBytes w (n % 2 ^ (8 * w)) := by
            rw [Nat.mod_mod_of_dvd _ (pow_dvd_pow 2 (by omega))]
        _ = beBytes w n := ih n

theorem beBytes_mem_lt (w n : Nat) : ∀ b ∈ beBytes w n, b < 256 := by
  induction w generalizing n with
  | zero => simp [beBytes]
  | succ w ih =>
    intro b hb
    rw [beBytes] at hb
    rcases List.mem_cons.mp hb with h | h
    · subst h
      exact Nat.mod_lt _ (by norm_num)
    · exact ih n b h

theorem beBytes_natOfBeBytes (bs : List Nat) (h : ∀ b ∈ bs, b < 256) :
    beBytes bs.length (natOfBeBytes bs) = bs := by
  induction bs with
  | nil => rfl
  | cons b bs ih =>
    have hb : b < 256 := h b (List.mem_cons_self b bs)
    have hrest : ∀ x ∈ bs, x < 256 := fun x hx => h x (List.mem_cons_of_mem _ hx)
    have hN : natOfBeBytes (b :: bs) = b * 256 ^ bs.length + natOfBeBytes bs := by
      rw [natOfBeBytes_cons, Nat.mod_eq_of_lt hb]
    have hlt : natOfBeBytes bs < 2 ^ (8 * bs.length) := by
      rw [← pow256_eq]
      exact natOfBeBytes_lt bs
    rw [List.length_cons, beBytes]
    congr 1
    · rw [hN, Nat.shiftRight_eq_div_pow, ← pow256_eq, mul_comm b,
        Nat.mul_add_div (Nat.pos_pow_of_pos _ (by norm_num)),
        Nat.div_eq_of_lt (by rw [← pow256_eq] at hlt; exact hlt), Nat.add_zero,
        Nat.mod_eq_of_lt hb]
    · calc beBytes bs.length (natOfBeBytes (b :: bs))
          = beBytes bs.length (natOfBeBytes (b :: bs) % 2 ^ (8 * bs.length)) :=
            (beBytes_mod _ _).symm
        _ = beBytes bs.length (natOfBeBytes bs % 2 ^ (8 * bs.length)) := by
            rw [hN, ← pow256_eq, mul_comm b, Nat.mul_add_mod, pow256_eq]
        _ = beBytes bs.length (natOfBeBytes bs) := by rw [Nat.mod_eq_of_lt hlt]
        _ = bs := ih hrest

theorem natOfBeBytes_zero_cons (bs : List Nat) :
    natOfBeBytes (0 :: bs) = natOfBeBytes bs := by
  rw [natOfBeBytes_cons]
  simp

theorem natOfBeBytes_replicate_zero (m : Nat) (bs : List Nat) :
    natOfBeBytes (List.replicate m 0 ++ bs) = natOfBeBytes bs := by
  induction m with
  | zero => rfl
  | succ m ih => rw [List.replicate_succ, List.cons_append, natOfBeBytes_zero_cons, ih]

theorem natOfBeBytes_pad32 (bs : List Nat) :
    natOfBeBytes (pad32 bs) = natOfBeBytes bs := natOfBeBytes_replicate_zero _ bs

theorem pad32_length (bs : List Nat) : (pad32 bs).length = max 32 bs.length := by
  simp only [pad32, List.length_append, List.length_replicate]
  omega

theorem pad32_of_length_eq (bs : List Nat) (h : bs.length = 32) : pad32 bs = bs := by
  simp [pad32, h]

theorem keccak256_lt (msg : List Nat) : keccak256 msg < 2 ^ 256 := by
  have h : ∀ l : List Nat, l.length = 32 → natOfBeBytes l < 2 ^ 256 := by
    intro l hl
    have h2 := natOfBeBytes_lt l
    rw [hl, pow256_eq] at h2
    simpa using h2
  simp only [keccak256]
  exact h _ (by simp)

theorem hostRead_nil (k : Nat) : hostRead [] k = 0 := rfl

theorem hostRead_hostWrite_self (st : HostState) (k v : Nat) :
    hostRead (hostWrite st k v) k = v % 2 ^ 256 := by
  simp [hostRead, hostWrite]

theorem hostRead_hostWrite_ne (st : HostState) (k v m : Nat) (h : k ≠ m) :
    hostRead (hostWrite st k v) m = hostRead st m := by
  simp [hostRead, hostWrite, h]

theorem hostRead_writeChunks_low (cs : List (List Nat)) (st : HostState) (k m : Nat)
    (h : m < k) : hostRead (writeChunks st k cs) m = hostRead st m := by
  induction cs generalizing st k with
  | nil => rfl
  | cons c cs ih =>
    rw [writeChunks, ih _ (k + 1) (by omega),
      hostRead_hostWrite_ne st k _ m (by omega)]

theorem hostRead_writeChunks_at (cs : List (List Nat)) (st : HostState) (k j : Nat)
    (h : j < cs.length) :
    hostRead (writeChunks st k cs) (k + j) = natOfBeBytes (cs.getD j []) % 2 ^ 256 := by
  induction cs generalizing st k j with
  | nil => simp at h
  | cons c cs ih =>
    cases j with
    | zero =>
      have h0 : hostRead (writeChunks st k (c :: cs)) (k + 0)
          = hostRead (writeChunks (hostWrite st k (natOfBeBytes c)) (k + 1) cs) k := rfl
      rw [h0, hostRead_writeChunks_low cs _ (k + 1) k (by omega),
        hostRead_hostWrite_self]
      rfl
    | succ j =>
      rw [writeChunks, show k + (j + 1) = (k + 1) + j by omega,
        ih _ (k + 1) j (by simpa using h)]
      rfl

theorem chunksPad_nil : chunksPad [] = [] := by
  rw [chunksPad]
  simp

theorem chunksPad_of_ne (l : List Nat) (h : l ≠ []) :
    chunksPad l = (l.take 32 ++ List.replicate (32 - l.length) 0) :: chunksPad (l.drop 32) := by
  conv_lhs => rw [chunksPad]
  rw [dif_neg h]

theorem chunksPad_mem_length (l : List Nat) : ∀ c ∈ chunksPad l, c.length = 32 := by
  induction l using chunksPad.induct with
  | case1 => simp [chunksPad_nil]
  | case2 l h ih =>
    rw [chunksPad_of_ne l h]
    intro c hc
    rcases List.mem_cons.mp hc with h2 | h2
    · subst h2
      simp only [List.length_append, List.length_take, List.length_replicate]
      have : 0 < l.length := List.length_pos.mpr h
      omega
    · exact ih c h2

theorem chunksPad_mem_lt (l : List Nat) (hb : ∀ b ∈ l, b < 256) :
    ∀ c ∈ chunksPad l, ∀ b ∈ c, b < 256 := by
  induction l using chunksPad.induct with
  | case1 => simp [chunksPad_nil]
  | case2 l h ih =>
    rw [chunksPad_of_ne l h]
    intro c hc b hbc
    rcases List.mem_cons.mp hc with h2 | h2
    · subst h2
      rcases List.mem_append.mp hbc with h3 | h3
      · exact hb b (List.take_subset 32 l h3)
      · rw [List.eq_of_mem_replicate h3]
        norm_num
    · exact ih (fun x hx => hb x (List.drop_subset 32 l hx)) c h2 b hbc

theorem chunksPad_length (l : List Nat) :
    (chunksPad l).length = (l.length + 31) / 32 := by
  induction l using chunksPad.induct with
  | case1 => simp [chunksPad_nil]
  | case2 l h ih =>
    rw [chunksPad_of_ne l h, List.length_cons, ih, List.length_drop]
    have : 0 < l.length := List.length_pos.mpr h
    omega

theorem chunksPad_flatten_take (l : List Nat) :
    (chunksPad l).flatten.take l.length = l := by
  induction l using chunksPad.induct with
  | case1 => simp [chunksPad_nil]
  | case2 l h ih =>
    rw [chunksPad_of_ne l h, List.flatten_cons]
    by_cases hle : l.length ≤ 32
    · rw [List.take_of_length_le hle, List.drop_eq_nil_of_le hle, chunksPad_nil]
      simp only [List.flatten_nil, List.append_nil]
      exact List.take_left' rfl
    · have h32 : (l.take 32 ++ List.replicate (32 - l.length) 0) = l.take 32 := by
        have : 32 - l.length = 0 := by omega
        simp [this]
      rw [h32]
      have hlen : (l.take 32).length = 32 := by
        simp only [List.length_take]
        omega
      have hdlen : (l.drop 32).length = l.length - 32 := by simp
      have hsplit : l.length = (l.take 32).length + (l.length - 32) := by omega
      rw [hsplit, List.take_append, ← hdlen, ih]
      exact List.take_append_drop 32 l

theorem chunksPad_cons32 (a b : List Nat) (ha : a.length = 32) :
    chunksPad (a ++ b) = a :: chunksPad b := by
  have hne : a ++ b ≠ [] := by
    intro h
    have := congrArg List.length h
    simp [ha] at this
  rw [chunksPad_of_ne _ hne, List.take_left' ha, List.drop_left' ha]
  have h0 : 32 - (a.length + b.length) = 0 := by omega
  simp [h0]

theorem hostRead_writeChunks_head (c : List Nat) (cs : List (List Nat)) (st : HostState) (k : Nat) :
    hostRead (writeChunks st k (c :: cs)) k = natOfBeBytes c % 2 ^ 256 := by
  rw [writeChunks, hostRead_writeChunks_low cs _ (k + 1) k (by omega),
    hostRead_hostWrite_self]

theorem chunksPad_flatten (l : List Nat) :
    (chunksPad l).flatten = l ++ List.replicate (32 * (chunksPad l).length - l.length) 0 := by
  induction l using chunksPad.induct with
  | case1 => simp [chunksPad_nil]
  | case2 l h ih =>
    have hpos : 0 < l.length := List.length_pos.mpr h
    by_cases hle : l.length ≤ 32
    · have hd : l.drop 32 = [] := List.drop_eq_nil_of_le hle
      rw [chunksPad_of_ne l h, hd, chunksPad_nil, List.take_of_length_le hle]
      simp only [List.flatten_cons, List.flatten_nil, List.append_nil, List.length_cons,
        List.length_nil]
    · push_neg at hle
      have hd32 : (l.drop 32).length = l.length - 32 := by simp
      have hcnt := chunksPad_length (l.drop 32)
      rw [hd32] at hcnt
      have hrep0 : 32 - l.length = 0 := by omega
      rw [chunksPad_of_ne l h, List.flatten_cons, hrep0, List.replicate_zero,
        List.append_nil, ih, List.length_cons, ← List.append_assoc, List.take_append_drop,
        show 32 * ((chunksPad (l.drop 32)).length + 1) - l.length
          = 32 * (chunksPad (l.drop 32)).length - (l.drop 32).length by omega]

theorem decodeValEnc_bytes_padded (bs : List Nat) (m : Nat) (hlen : bs.length < 2 ^ 256) :
    decodeValEnc .bytes (beBytes 32 bs.length ++ (bs ++ List.replicate m 0))
      = .ok (.bytes bs) := by
  have hp : (2 : Nat) ^ (8 * 32) = 2 ^ 256 := by norm_num
  have hdrop : (beBytes 32 bs.length ++ (bs ++ List.replicate m 0)).drop 32
      = bs ++ List.replicate m 0 := List.drop_left' (beBytes_length 32 bs.length)
  have hL : natOfBeBytes ((beBytes 32 bs.length ++ (bs ++ List.replicate m 0)).take 32)
      = bs.length := by
    rw [List.take_left' (beBytes_length 32 bs.length), natOfBeBytes_beBytes, hp]
    exact Nat.mod_eq_of_lt hlen
  have hshape : bytesShapeOk (beBytes 32 bs.length ++ (bs ++ List.replicate m 0)) = true := by
    simp only [bytesShapeOk, hdrop, hL, Bool.and_eq_true, decide_eq_true_eq]
    refine ⟨⟨by simp [beBytes_length], ?_⟩, ?_⟩
    · simp only [List.length_append, List.length_replicate]
      omega
    · rw [List.drop_left, List.length_append, List.length_replicate,
        show bs.length + m - bs.length = m by omega]
  have hunfold : decodeValEnc .bytes (beBytes 32 bs.length ++ (bs ++ List.replicate m 0)) =
      if bytesShapeOk (beBytes 32 bs.length ++ (bs ++ List.replicate m 0)) then
        Except.ok (Val.bytes
          (((beBytes 32 bs.length ++ (bs ++ List.replicate m 0)).drop 32).take
            (natOfBeBytes ((beBytes 32 bs.length ++ (bs ++ List.replicate m 0)).take 32))))
      else Except.error DecodeError.shapeMismatch := rfl
  rw [hunfold, if_pos hshape, hdrop, hL, List.take_left]

theorem indirect_roundtrip (st : HostState) (k : Nat) (bs : List Nat)
    (hlen : bs.length < 2 ^ 256) (hb : ∀ b ∈ bs, b < 256) :
    indirectGetBytes (indirectSetBytes st k (beBytes 32 bs.length ++ bs)) k
      = Except.ok (Val.bytes bs) := by
  have hp : (2 : Nat) ^ (8 * 32) = 2 ^ 256 := by norm_num
  by_cases hnil : bs = []
  · subst hnil
    have hset : indirectSetBytes st k (beBytes 32 (List.length ([] : List Nat)) ++ []) =
        hostWrite st k 0 := by
      rw [indirectSetBytes, if_pos (by simp [beBytes_length])]
      rw [directSetBytes, List.append_nil, List.length_nil,
        pad32_of_length_eq _ (beBytes_length 32 0), natOfBeBytes_beBytes]
      norm_num
    rw [hset]
    simp only [indirectGetBytes, indirectReadEnc, hostRead_hostWrite_self]
    norm_num
    rfl
  · have hchunk_len : ∀ c ∈ chunksPad bs, c.length = 32 := chunksPad_mem_length bs
    have hgt : ¬ (beBytes 32 bs.length ++ bs).length ≤ 32 := by
      have h1 : 0 < bs.length := List.length_pos.mpr hnil
      simp only [List.length_append, beBytes_length]
      omega
    have hset : indirectSetBytes st k (beBytes 32 bs.length ++ bs)
        = writeChunks st k (beBytes 32 bs.length :: chunksPad bs) := by
      rw [indirectSetBytes, if_neg hgt, chunksPad_cons32 _ _ (beBytes_length 32 bs.length)]
    rw [hset]
    have hhead : hostRead (writeChunks st k (beBytes 32 bs.length :: chunksPad bs)) k
        = bs.length := by
      rw [hostRead_writeChunks_head, natOfBeBytes_beBytes, hp,
        Nat.mod_mod_of_dvd _ dvd_rfl, Nat.mod_eq_of_lt hlen]
    have hdata : ∀ j, j < (chunksPad bs).length →
        hostRead (writeChunks st k (beBytes 32 bs.length :: chunksPad bs)) (k + 1 + j)
          = natOfBeBytes ((chunksPad bs).getD j []) := by
      intro j hj
      have h0 := hostRead_writeChunks_at (beBytes 32 bs.length :: chunksPad bs) st k (j + 1)
        (by simpa using hj)
      rw [show k + (j + 1) = k + 1 + j by omega] at h0
      rw [h0, List.getD_cons_succ]
      have hmem : (chunksPad bs).getD j [] ∈ chunksPad bs := by
        rw [List.getD_eq_getElem _ _ hj]
        exact List.getElem_mem hj
      have hblt : natOfBeBytes ((chunksPad bs).getD j []) < 2 ^ 256 := by
        have h2 := natOfBeBytes_lt ((chunksPad bs).getD j [])
        rw [hchunk_len _ hmem, pow256_eq, hp] at h2
        exact h2
      exact Nat.mod_eq_of_lt hblt
    have hmap : ((List.range ((bs.length + 31) / 32)).map
        fun j => beBytes 32 (hostRead
          (writeChunks st k (beBytes 32 bs.length :: chunksPad bs)) (k + 1 + j)))
        = chunksPad bs := by
      have hcnt : (bs.length + 31) / 32 = (chunksPad bs).length := (chunksPad_length bs).symm
      apply List.ext_getElem
      · simp [hcnt]
      · intro i h1 h2
        simp only [List.getElem_map, List.getElem_range]
        rw [hdata i h2, List.getD_eq_getElem _ _ h2]
        have hclen : ((chunksPad bs)[i]).length = 32 := hchunk_len _ (List.getElem_mem h2)
        have hcb : ∀ b ∈ (chunksPad bs)[i], b < 256 :=
          chunksPad_mem_lt bs hb _ (List.getElem_mem h2)
        calc beBytes 32 (natOfBeBytes ((chunksPad bs)[i]))
            = beBytes ((chunksPad bs)[i]).length (natOfBeBytes ((chunksPad bs)[i])) := by
              rw [hclen]
          _ = (chunksPad bs)[i] := beBytes_natOfBeBytes _ hcb
    simp only [indirectGetBytes, indirectReadEnc, hhead, hmap]
    rw [chunksPad_flatten]
    exact decodeValEnc_bytes_padded bs _ hlen


theorem natOfBeBytes_singleton (x : Nat) : natOfBeBytes [x] = x % 256 := by
  rw [natOfBeBytes_cons]
  simp [natOfBeBytes]

theorem decodeValEnc_bytes (bs : List Nat) (hlen : bs.length < 2 ^ 256) :
    decodeValEnc .bytes (beBytes 32 bs.length ++ bs) = .ok (.bytes bs) := by
  have h0 := decodeValEnc_bytes_padded bs 0 hlen
  simpa using h0

theorem wfVal_bytes_elim (bs : List Nat) (h : wfVal (.bytes bs) = true) :
    bs.length < 2 ^ 256 ∧ ∀ b ∈ bs, b < 256 := by
  simp only [wfVal, Bool.and_eq_true, decide_eq_true_eq, List.all_eq_true] at h
  exact ⟨h.1, fun b hb => by simpa using h.2 b hb⟩

theorem codec_roundtrip (v : Val) (h : wfVal v = true) :
    decodeValEnc v.ty (encodeVal v) = Except.ok v := by
  cases v with
  | word n =>
    simp only [wfVal, decide_eq_true_eq] at h
    have hp : (2 : Nat) ^ (8 * 32) = 2 ^ 256 := by norm_num
    simp only [Val.ty, encodeVal, decodeValEnc]
    rw [if_pos (beBytes_length 32 n), natOfBeBytes_beBytes, hp, Nat.mod_eq_of_lt h]
  | boolean b => cases b <;> rfl
  | addr a =>
    simp only [wfVal, decide_eq_true_eq] at h
    have hp : (2 : Nat) ^ (8 * 20) = 2 ^ 160 := by norm_num
    simp only [Val.ty, encodeVal, decodeValEnc]
    rw [if_pos (beBytes_length 20 a), natOfBeBytes_beBytes, hp, Nat.mod_eq_of_lt h]
  | bytes bs =>
    obtain ⟨hlen, _⟩ := wfVal_bytes_elim bs h
    exact decodeValEnc_bytes bs hlen

theorem accessor_roundtrip (st : HostState) (k : Nat) (v : Val) (h : wfVal v = true) :
    storGet (storSet st k v) k v.ty = Except.ok v := by
  cases v with
  | word n =>
    simp only [wfVal, decide_eq_true_eq] at h
    have hp : (2 : Nat) ^ (8 * 32) = 2 ^ 256 := by norm_num
    show decodeWordAs .word (hostRead (directSetBytes st k (beBytes 32 n)) k)
      = Except.ok (.word n)
    rw [directSetBytes, pad32_of_length_eq _ (beBytes_length 32 n), natOfBeBytes_beBytes, hp,
      hostRead_hostWrite_self, Nat.mod_mod_of_dvd _ dvd_rfl, Nat.mod_eq_of_lt h]
    rfl
  | boolean b =>
    cases b
    · show decodeWordAs .boolean (hostRead (directSetBytes st k [0]) k)
        = Except.ok (.boolean false)
      have h0 : natOfBeBytes (pad32 [0]) = 0 := by decide
      rw [directSetBytes, h0, hostRead_hostWrite_self, Nat.zero_mod]
      rfl
    · show decodeWordAs .boolean (hostRead (directSetBytes st k [1]) k)
        = Except.ok (.boolean true)
      have h0 : natOfBeBytes (pad32 [1]) = 1 := by decide
      rw [directSetBytes, h0, hostRead_hostWrite_self,
        Nat.mod_eq_of_lt (by norm_num : (1 : Nat) < 2 ^ 256)]
      rfl
  | addr a =>
    simp only [wfVal, decide_eq_true_eq] at h
    have hp : (2 : Nat) ^ (8 * 20) = 2 ^ 160 := by norm_num
    show decodeWordAs .addr (hostRead (directSetBytes st k (beBytes 20 a)) k)
      = Except.ok (.addr a)
    have hpad : pad32 (beBytes 20 a) = List.replicate 12 0 ++ beBytes 20 a := by
      rw [pad32, beBytes_length]
    rw [directSetBytes, hpad, natOfBeBytes_replicate_zero, natOfBeBytes_beBytes, hp,
      Nat.mod_eq_of_lt h, hostRead_hostWrite_self,
      Nat.mod_eq_of_lt (lt_trans h (by norm_num : (2 : Nat) ^ 160 < 2 ^ 256))]
    simp only [decodeWordAs]
    rw [if_pos h]
  | bytes bs =>
    obtain ⟨hlen, hb⟩ := wfVal_bytes_elim bs h
    have hgoal : storGet (storSet st k (Val.bytes bs)) k (Val.bytes bs).ty
        = storGet (indirectSetBytes st k (beBytes 32 bs.length ++ bs)) k .bytes := by
      simp [storSet, storGet, Val.ty, isDirectTy, encodeVal]
    rw [hgoal]
    have hget : storGet (indirectSetBytes st k (beBytes 32 bs.length ++ bs)) k .bytes
        = indirectGetBytes (indirectSetBytes st k (beBytes 32 bs.length ++ bs)) k := by
      simp [storGet, isDirectTy]
    rw [hget]
    exact indirect_roundtrip st k bs hlen hb

/-- C1: for every simple-mapping entry with base slot `s` and mapping key `k`,
the key operation returns `keccak256(pad32(encode(k)) || pad32(s))`, where
`pad32` left-pads (right-aligns) the encoded key with zero bytes to 32 bytes,
big-endian for numeric and address types. -/
theorem mapping_key_spec (s : Nat) (kb : List Nat) (n a : Nat) :
    deriveKey s [.mapKey kb] = keccak256 (pad32 kb ++ pad32 (beBytes 32 s))
    ∧ pad32 kb = List.replicate (32 - kb.length) 0 ++ kb
    ∧ (pad32 kb).length = max 32 kb.length
    ∧ natOfBeBytes (pad32 kb) = natOfBeBytes kb
    ∧ pad32 (encodeVal (.word n)) = beBytes 32 n
    ∧ natOfBeBytes (encodeVal (.word n)) = n % 2 ^ 256
    ∧ natOfBeBytes (encodeVal (.addr a)) = a % 2 ^ 160 := by
  refine ⟨?_, rfl, pad32_length kb, natOfBeBytes_pad32 kb, ?_, ?_, ?_⟩
  · rw [pad32_of_length_eq _ (beBytes_length 32 s)]
    rfl
  · show pad32 (beBytes 32 n) = beBytes 32 n
    exact pad32_of_length_eq _ (beBytes_length 32 n)
  · show natOfBeBytes (beBytes 32 n) = n % 2 ^ 256
    rw [natOfBeBytes_beBytes]
  · show natOfBeBytes (beBytes 20 a) = a % 2 ^ 160
    rw [natOfBeBytes_beBytes]

/-- C2: nested-mapping keys are the left fold of the simple-mapping rule over
the key path, innermost hash first, and the spec's slot-3 test vector holds. -/
theorem nested_mapping_key_spec (s : Nat) (k1 k2 : List Nat) (rest : List PathComp) :
    deriveKey s (.mapKey k1 :: rest)
      = deriveKey (keccak256 (pad32 k1 ++ pad32 (beBytes 32 s))) rest
    ∧ deriveKey s [.mapKey k1, .mapKey k2]
      = keccak256 (pad32 k2 ++ beBytes 32 (keccak256 (pad32 k1 ++ beBytes 32 s)))
    ∧ deriveKey 3 [.mapKey (beBytes 32 1), .mapKey (beBytes 32 2)]
      = keccak256 (pad32 (beBytes 32 2)
          ++ beBytes 32 (keccak256 (pad32 (beBytes 32 1) ++ beBytes 32 3))) := by
  refine ⟨?_, rfl, rfl⟩
  rw [pad32_of_length_eq _ (beBytes_length 32 s)]
  rfl

/-- C3: dynamic-array element keys are `keccak256(pad32(slot)) + i` with
256-bit wrapping addition, the spec's slot-5 vectors hold, and
multi-dimensional indices compose by applying the rule per dimension. -/
theorem array_key_spec (s i j : Nat) :
    deriveKey s [.arrIdx i] = (keccak256 (pad32 (beBytes 32 s)) + i) % 2 ^ 256
    ∧ deriveKey 5 [.arrIdx 0] = keccak256 (pad32 (beBytes 32 5))
    ∧ deriveKey 5 [.arrIdx 2] = (deriveKey 5 [.arrIdx 0] + 2) % 2 ^ 256
    ∧ deriveKey s [.arrIdx i, .arrIdx j]
      = (keccak256 (beBytes 32 ((keccak256 (beBytes 32 s) + i) % 2 ^ 256)) + j) % 2 ^ 256 := by
  have h1 : ∀ (s2 i2 : Nat), deriveKey s2 [.arrIdx i2]
      = (keccak256 (beBytes 32 s2) + i2) % 2 ^ 256 := fun s2 i2 => rfl
  refine ⟨?_, ?_, ?_, rfl⟩
  · rw [pad32_of_length_eq _ (beBytes_length 32 s)]
    exact h1 s i
  · rw [pad32_of_length_eq _ (beBytes_length 32 5), h1 5 0, Nat.add_zero,
      Nat.mod_eq_of_lt (keccak256_lt _)]
  · rw [h1 5 2, h1 5 0, Nat.add_zero, Nat.mod_add_mod]

theorem assignFrom_getElem (ds : List Decl) (s i : Nat) :
    (assignFrom s ds)[i]? = (ds[i]?).map fun d => (s + i, d) := by
  induction ds generalizing s i with
  | nil => simp [assignFrom]
  | cons d ds ih =>
    cases i with
    | zero => simp [assignFrom]
    | succ i =>
      simp only [assignFrom, List.getElem?_cons_succ, ih (s + 1) i]
      rw [show s + 1 + i = s + (i + 1) by omega]

theorem assignFrom_map_fst (ds : List Decl) (s : Nat) :
    (assignFrom s ds).map Prod.fst = List.range' s ds.length := by
  induction ds generalizing s with
  | nil => rfl
  | cons d ds ih =>
    rw [List.length_cons, List.range'_succ]
    simp only [assignFrom, List.map_cons, ih (s + 1)]

/-- C5: the Slot Assigner assigns slot 0 to the first declaration, slot 1 to
the second, and so on, regardless of type size; no two declarations share a
slot; and re-running it on the same ordered declarations yields the same
slot-to-entry mapping. -/
theorem slot_assigner_spec (ds ds2 : List Decl) (i : Nat) :
    (assignSlots ds).map Prod.fst = List.range ds.length
    ∧ (assignSlots ds)[i]? = (ds[i]?).map (fun d => (i, d))
    ∧ ((assignSlots ds).map Prod.fst).Nodup
    ∧ (ds2 = ds → assignSlots ds2 = assignSlots ds)
    ∧ (assignSlots [⟨"Small1", 1⟩, ⟨"Small2", 1⟩, ⟨"Large", 32⟩]).map Prod.fst
        = [0, 1, 2] := by
  have hfst : (assignSlots ds).map Prod.fst = List.range ds.length := by
    rw [assignSlots, assignFrom_map_fst, List.range_eq_range']
  refine ⟨hfst, ?_, ?_, fun h => by rw [h], by rfl⟩
  · rw [assignSlots, assignFrom_getElem]
    simp
  · rw [hfst]
    exact List.nodup_range ds.length

/-- C5 witness: the slot assigner on the documentation's three-declaration
example, re-run on the identical list: the slots are 0, 1, 2 and the re-run
yields the identical mapping. -/
theorem slot_assigner_spec_witness :
    ([⟨"Small1", 1⟩, ⟨"Small2", 1⟩, ⟨"Large", 32⟩] : List Decl)
        = [⟨"Small1", 1⟩, ⟨"Small2", 1⟩, ⟨"Large", 32⟩]
    ∧ (assignSlots [⟨"Small1", 1⟩, ⟨"Small2", 1⟩, ⟨"Large", 32⟩]).map Prod.fst
        = List.range ([⟨"Small1", 1⟩, ⟨"Small2", 1⟩, ⟨"Large", 32⟩] : List Decl).length
    ∧ assignSlots [⟨"Small1", 1⟩, ⟨"Small2", 1⟩, ⟨"Large", 32⟩]
        = assignSlots [⟨"Small1", 1⟩, ⟨"Small2", 1⟩, ⟨"Large", 32⟩] := by
  have h := slot_assigner_spec [⟨"Small1", 1⟩, ⟨"Small2", 1⟩, ⟨"Large", 32⟩]
    [⟨"Small1", 1⟩, ⟨"Small2", 1⟩, ⟨"Large", 32⟩] 0
  exact ⟨rfl, h.1, h.2.2.2.1 rfl⟩

/-- C8: key derivation is a pure, deterministic function of the base slot and
path — identical arguments give identical results, the host state is neither
read (the result is state-independent) nor written (the state is returned
unchanged), and zero keys and a zero slot are hashed by the same rule. -/
theorem key_purity_spec (slot : Nat) (path : List PathComp) (st st2 : HostState) :
    (keyOp slot path st).1 = (keyOp slot path st2).1
    ∧ (keyOp slot path st).2 = st
    ∧ keyOp slot path st = (deriveKey slot path, st)
    ∧ deriveKey 0 [.mapKey (beBytes 32 0)]
        = keccak256 (pad32 (beBytes 32 0) ++ beBytes 32 0) :=
  ⟨rfl, rfl, rfl, rfl⟩

/-- C4: for every supported type, value, and key path, `set` then `get` on
the same entry returns exactly the value written, relying on
`decode(encode(v)) = v` for all valid values. -/
theorem storage_roundtrip_spec (st : HostState) (slot : Nat) (path : List PathComp)
    (v : Val) (h : wfVal v = true) :
    decodeValEnc v.ty (encodeVal v) = Except.ok v
    ∧ storGet (storSet st (deriveKey slot path) v) (deriveKey slot path) v.ty
        = Except.ok v :=
  ⟨codec_roundtrip v h, accessor_roundtrip st (deriveKey slot path) v h⟩

/-- C4 witness: a 33-byte dynamic value (spanning a head slot and two
continuation slots) round-trips through an empty host store. -/
theorem storage_roundtrip_spec_witness :
    wfVal (Val.bytes (List.replicate 33 7)) = true
    ∧ (decodeValEnc (Val.bytes (List.replicate 33 7)).ty
          (encodeVal (Val.bytes (List.replicate 33 7)))
        = Except.ok (Val.bytes (List.replicate 33 7))
      ∧ storGet (storSet [] (deriveKey 0 []) (Val.bytes (List.replicate 33 7)))
          (deriveKey 0 []) (Val.bytes (List.replicate 33 7)).ty
        = Except.ok (Val.bytes (List.replicate 33 7))) :=
  ⟨by decide, storage_roundtrip_spec [] 0 [] (Val.bytes (List.replicate 33 7)) (by decide)⟩

/-- C6: for every entry and key path whose derived key was never written
(the host read yields the zero word), `get` returns the type's zero value —
0, false, the zero address, or empty bytes — and raises no error. -/
theorem default_zero_spec (st : HostState) (slot : Nat) (path : List PathComp) (ty : Ty)
    (h : hostRead st (deriveKey slot path) = 0) :
    storGet st (deriveKey slot path) ty = Except.ok (zeroVal ty) := by
  cases ty with
  | word =>
    show decodeWordAs .word (hostRead st (deriveKey slot path)) = _
    rw [h]
    rfl
  | boolean =>
    show decodeWordAs .boolean (hostRead st (deriveKey slot path)) = _
    rw [h]
    rfl
  | addr =>
    show decodeWordAs .addr (hostRead st (deriveKey slot path)) = _
    rw [h]
    simp only [decodeWordAs, zeroVal]
    rw [if_pos (by norm_num)]
  | bytes =>
    show indirectGetBytes st (deriveKey slot path) = _
    simp only [indirectGetBytes, indirectReadEnc, h]
    rfl

/-- C6 witness: reading a dynamic-bytes entry at slot 5 from the empty host
store yields the empty byte string. -/
theorem default_zero_spec_witness :
    hostRead [] (deriveKey 5 []) = 0
    ∧ storGet [] (deriveKey 5 []) Ty.bytes = Except.ok (zeroVal Ty.bytes) :=
  ⟨rfl, default_zero_spec [] 5 [] .bytes rfl⟩

/-- C7: stored bytes that do not match the dynamic type's shape make the
Indirect Accessor's get fail with `DecodeError.shapeMismatch` — it never
returns a value for them — and a failing invocation aborts as a whole: its
pending writes are discarded, with no recovery into a result. -/
theorem decode_error_spec (st : HostState) (k : Nat) (ops : List Op) (e2 : DecodeError)
    (h1 : bytesShapeOk (indirectReadEnc st k) = false)
    (h2 : runOps st ops = Except.error e2) :
    indirectGetBytes st k = Except.error DecodeError.shapeMismatch
    ∧ (∀ v : Val, indirectGetBytes st k ≠ Except.ok v)
    ∧ invoke st ops = st := by
  have hunfold : indirectGetBytes st k =
      if bytesShapeOk (indirectReadEnc st k) then
        Except.ok (Val.bytes (((indirectReadEnc st k).drop 32).take
          (natOfBeBytes ((indirectReadEnc st k).take 32))))
      else Except.error DecodeError.shapeMismatch := rfl
  have herr : indirectGetBytes st k = Except.error DecodeError.shapeMismatch := by
    rw [hunfold, if_neg]
    rw [h1]
    exact Bool.false_ne_true
  refine ⟨herr, fun v hv => ?_, ?_⟩
  · rw [herr] at hv
    exact Except.noConfusion hv
  · rw [invoke, h2]

/-- C7 witness: slot 10 announces 5 content bytes but its continuation slot
11 holds the word 3, so the reconstructed bytes have a nonzero byte in the
padding region — inconsistent length metadata.  The indirect get at slot 10
fails with a shape mismatch and never yields a value, and an invocation that
writes slot 1 and then performs this get commits nothing: the original store
is kept. -/
theorem decode_error_spec_witness :
    bytesShapeOk (indirectReadEnc [(10, 5), (11, 3)] 10) = false
    ∧ runOps [(10, 5), (11, 3)] [Op.opSet 1 [] (Val.word 9), Op.opGet 10 [] Ty.bytes]
        = Except.error DecodeError.shapeMismatch
    ∧ (indirectGetBytes [(10, 5), (11, 3)] 10 = Except.error DecodeError.shapeMismatch
      ∧ (∀ v : Val, indirectGetBytes [(10, 5), (11, 3)] 10 ≠ Except.ok v)
      ∧ invoke [(10, 5), (11, 3)] [Op.opSet 1 [] (Val.word 9), Op.opGet 10 [] Ty.bytes]
          = [(10, 5), (11, 3)]) := by
  have h1 : bytesShapeOk (indirectReadEnc [(10, 5), (11, 3)] 10) = false := by decide
  have h2 : runOps [(10, 5), (11, 3)] [Op.opSet 1 [] (Val.word 9), Op.opGet 10 [] Ty.bytes]
      = Except.error DecodeError.shapeMismatch := by rfl
  exact ⟨h1, h2, decode_error_spec _ _ _ _ h1 h2⟩

/-- C9: when a canonical encoding fits one 32-byte slot the Indirect
Accessor's `set` is the Direct Accessor's `set` (same slot, same bytes);
only a larger encoding is split across consecutively addressed slots, the
head slot holding the encoding's leading length word for dynamically sized
content. -/
theorem indirect_layout_spec (st : HostState) (k : Nat) (e : List Nat) :
    (e.length ≤ 32 → indirectSetBytes st k e = directSetBytes st k e)
    ∧ (32 < e.length →
        indirectSetBytes st k e = writeChunks st k (chunksPad e)
        ∧ (∀ j c, (chunksPad e)[j]? = some c →
            hostRead (indirectSetBytes st k e) (k + j) = natOfBeBytes c)
        ∧ (∀ L data, e = beBytes 32 L ++ data →
            hostRead (indirectSetBytes st k e) k = L % 2 ^ 256)) := by
  refine ⟨fun h => by rw [indirectSetBytes, if_pos h], fun h => ?_⟩
  have hne : ¬ e.length ≤ 32 := by omega
  have hset : indirectSetBytes st k e = writeChunks st k (chunksPad e) := by
    rw [indirectSetBytes, if_neg hne]
  refine ⟨hset, ?_, ?_⟩
  · intro j c hj
    have hjlt : j < (chunksPad e).length := by
      by_contra hcon
      rw [List.getElem?_eq_none_iff.mpr (by omega)] at hj
      exact Option.noConfusion hj
    have hgetd : (chunksPad e).getD j [] = c := by
      rw [List.getD_eq_getElem?_getD, hj]
      rfl
    have hclen : c.length = 32 := by
      rw [← hgetd]
      apply chunksPad_mem_length
      rw [List.getD_eq_getElem _ _ hjlt]
      exact List.getElem_mem hjlt
    have hblt : natOfBeBytes c < 2 ^ 256 := by
      have h2 := natOfBeBytes_lt c
      rw [hclen, pow256_eq] at h2
      simpa using h2
    rw [hset, hostRead_writeChunks_at _ _ _ _ hjlt, hgetd, Nat.mod_eq_of_lt hblt]
  · intro L data hL
    have hene : e ≠ [] := by
      intro hcon
      rw [hcon] at h
      simp at h
    have htake : e.take 32 = beBytes 32 L := by
      rw [hL, List.take_left' (beBytes_length 32 L)]
    have hrep : 32 - e.length = 0 := by omega
    rw [hset, chunksPad_of_ne e hene, hostRead_writeChunks_head, htake, hrep,
      List.replicate_zero, List.append_nil, natOfBeBytes_beBytes,
      show (2 : Nat) ^ (8 * 32) = 2 ^ 256 by norm_num,
      Nat.mod_mod_of_dvd _ dvd_rfl]

/-- C9 witness: a 40-byte encoding (a 32-byte length word announcing 8
content bytes, then the 8 bytes) at slot 5: it is written as two chunks, the
second chunk is the zero-padded content at slot 6, and the head slot 5 reads
back the length 8. -/
theorem indirect_layout_spec_witness :
    32 < (beBytes 32 8 ++ [1, 2, 3, 4, 5, 6, 7, 8]).length
    ∧ (chunksPad (beBytes 32 8 ++ [1, 2, 3, 4, 5, 6, 7, 8]))[1]?
        = some ([1, 2, 3, 4, 5, 6, 7, 8] ++ List.replicate 24 0)
    ∧ hostRead (indirectSetBytes [] 5 (beBytes 32 8 ++ [1, 2, 3, 4, 5, 6, 7, 8])) (5 + 1)
        = natOfBeBytes ([1, 2, 3, 4, 5, 6, 7, 8] ++ List.replicate 24 0)
    ∧ hostRead (indirectSetBytes [] 5 (beBytes 32 8 ++ [1, 2, 3, 4, 5, 6, 7, 8])) 5
        = 8 % 2 ^ 256 := by
  have hlen : 32 < (beBytes 32 8 ++ ([1, 2, 3, 4, 5, 6, 7, 8] : List Nat)).length := by
    simp [beBytes_length]
  have hchunk : chunksPad (beBytes 32 8 ++ [1, 2, 3, 4, 5, 6, 7, 8])
      = [beBytes 32 8, [1, 2, 3, 4, 5, 6, 7, 8] ++ List.replicate 24 0] := by
    rw [chunksPad_cons32 _ _ (beBytes_length 32 8),
      chunksPad_of_ne _ (by decide),
      show ([1, 2, 3, 4, 5, 6, 7, 8] : List Nat).drop 32 = [] from rfl, chunksPad_nil]
    rfl
  have hj : (chunksPad (beBytes 32 8 ++ [1, 2, 3, 4, 5, 6, 7, 8]))[1]?
      = some ([1, 2, 3, 4, 5, 6, 7, 8] ++ List.replicate 24 0) := by
    rw [hchunk]
    rfl
  obtain ⟨hset, hread, hhead⟩ :=
    (indirect_layout_spec [] 5 (beBytes 32 8 ++ [1, 2, 3, 4, 5, 6, 7, 8])).2 hlen
  exact ⟨hlen, hj, hread 1 _ hj, hhead 8 [1, 2, 3, 4, 5, 6, 7, 8] rfl⟩

/-- C10: a dynamic-array `set(i, v)` writes exactly the single derived
element slot `keccak256(pad32(slot)) + i` and leaves every other key
unchanged, and the array `get` consults only that derived key — in
particular no length metadata at the base slot is maintained or read. -/
theorem array_frame_spec (st : HostState) (slot i n k2 : Nat) :
    arraySet st slot i (.word n)
      = hostWrite st ((keccak256 (pad32 (beBytes 32 slot)) + i) % 2 ^ 256) (n % 2 ^ 256)
    ∧ (k2 ≠ (keccak256 (pad32 (beBytes 32 slot)) + i) % 2 ^ 256 →
        hostRead (arraySet st slot i (.word n)) k2 = hostRead st k2)
    ∧ (∀ st2 : HostState,
        hostRead st2 (deriveKey slot [.arrIdx i]) = hostRead st (deriveKey slot [.arrIdx i]) →
        arrayGet st2 slot i .word = arrayGet st slot i .word) := by
  have hkey : (keccak256 (pad32 (beBytes 32 slot)) + i) % 2 ^ 256
      = deriveKey slot [.arrIdx i] := by
    rw [pad32_of_length_eq _ (beBytes_length 32 slot)]
    rfl
  refine ⟨?_, fun hne => ?_, fun st2 hst2 => ?_⟩
  · rw [hkey]
    show directSetBytes st (deriveKey slot [.arrIdx i]) (beBytes 32 n)
      = hostWrite st (deriveKey slot [.arrIdx i]) (n % 2 ^ 256)
    rw [directSetBytes, pad32_of_length_eq _ (beBytes_length 32 n), natOfBeBytes_beBytes,
      show (2 : Nat) ^ (8 * 32) = 2 ^ 256 by norm_num]
  · rw [hkey] at hne
    show hostRead (directSetBytes st (deriveKey slot [.arrIdx i]) (beBytes 32 n)) k2
      = hostRead st k2
    rw [directSetBytes]
    exact hostRead_hostWrite_ne st _ _ k2 hne.symm
  · show decodeWordAs .word (hostRead st2 (deriveKey slot [.arrIdx i]))
      = decodeWordAs .word (hostRead st (deriveKey slot [.arrIdx i]))
    rw [hst2]

/-- C10 witness: the frame property applied at slot 5, index 0, value 7,
and the untouched key `2 ^ 256` (never a derived key, which is below
`2 ^ 256`): the read there is unaffected by the array write. -/
theorem array_frame_spec_witness :
    (2 : Nat) ^ 256 ≠ (keccak256 (pad32 (beBytes 32 5)) + 0) % 2 ^ 256
    ∧ hostRead (arraySet [] 5 0 (.word 7)) (2 ^ 256) = hostRead [] (2 ^ 256) := by
  have hlt : (keccak256 (pad32 (beBytes 32 5)) + 0) % 2 ^ 256 < 2 ^ 256 :=
    Nat.mod_lt _ (by positivity)
  exact ⟨ne_of_gt hlt, (array_frame_spec [] 5 0 7 (2 ^ 256)).2.1 (ne_of_gt hlt)⟩
